import Mathlib

/-!
Verification of the `hammdist` SQLite extension (src/hammdist.c).

The C code is embedded shallowly over `Nat` and `List Nat`:
  * a byte sequence (`const unsigned char *`, length) becomes a `List Nat`
    whose elements are below 256;
  * `popcount_u64`'s builtin branch (`__builtin_popcountll`, the count of
    1-bits) becomes `popcount`, and its portable SWAR fallback branch becomes
    `popcount_u64_swar`, with the 64-bit wraparound of the final
    multiplication made explicit as `% 2 ^ 64`;
  * `hamming_distance_blob` keeps its two routes: `wordPath` (the
    `memcpy`-into-`uint64_t` fast path, little-endian as on x86) and
    `bytePath` (the byte loop over the overlapping prefix plus the tail
    loops);
  * `hamming_distance_sql` takes the argument list as
    `List (Option (List Nat))`; `none` models a NULL blob pointer from
    `sqlite3_value_blob`, and the result `none` models `sqlite3_result_null`.
-/

namespace Hammdist

/-- Fuel-driven bit-count loop; the fuel is only there to make the
recursion structural, `popcount` instantiates it large enough. -/
def popcountAux : Nat → Nat → Nat
  | 0, _ => 0
  | fuel + 1, n => if n = 0 then 0 else popcountAux fuel (n / 2) + n % 2

/-- Number of 1-bits of a natural number.  This models the compiler
builtins `__builtin_popcount` / `__builtin_popcountll` (the intrinsic branch
of `popcount_u64` in src/hammdist.c, lines 8-9). -/
def popcount (n : Nat) : Nat := popcountAux n n

/-- First statement of the SWAR fallback (src/hammdist.c, line 12):
`x = x - ((x >> 1) & 0x5555555555555555ULL)`.  The subtraction cannot wrap
in `uint64_t` because the subtrahend is a masked right shift of `x`, hence
at most `x`, so plain `Nat` subtraction is exact here. -/
def swarStep1 (x : Nat) : Nat := x - ((x >>> 1) &&& 0x5555555555555555)

/-- Second statement of the SWAR fallback (src/hammdist.c, line 13):
`x = (x & 0x3333...) + ((x >> 2) & 0x3333...)` (no wrap possible: each
summand is below `2 ^ 63`). -/
def swarStep2 (x1 : Nat) : Nat :=
  (x1 &&& 0x3333333333333333) + ((x1 >>> 2) &&& 0x3333333333333333)

/-- Third statement of the SWAR fallback (src/hammdist.c, line 14):
`(((x + (x >> 4)) & 0x0F0F...) * 0x0101...) >> 56`.  The `uint64_t`
multiplication wraps, so it is reduced `% 2 ^ 64` explicitly; the inner
addition cannot wrap since `x ≤ 0x4444...` at this point. -/
def swarStep3 (x2 : Nat) : Nat :=
  ((((x2 + (x2 >>> 4)) &&& 0x0F0F0F0F0F0F0F0F) * 0x0101010101010101) % 2 ^ 64) >>> 56

/-- The portable SWAR fallback branch of `popcount_u64`
(src/hammdist.c, lines 11-14): the three statements in sequence. -/
def popcount_u64_swar (x : Nat) : Nat := swarStep3 (swarStep2 (swarStep1 x))

/-- What `swarStep1` does to each byte. -/
def swarByte1 (b : Nat) : Nat := b - (b / 2 &&& 0x55)

/-- What `swarStep2` does to each byte. -/
def swarByte2 (c : Nat) : Nat := (c &&& 0x33) + (c / 4 &&& 0x33)

/-- What the mask-and-add part of `swarStep3` does to each byte. -/
def swarByte3 (d : Nat) : Nat := d % 16 + d / 16

/-- `n` copies of the byte `m`, assembled little-endian: the shape of the
SWAR masks (`repMask 0x55 8 = 0x5555555555555555` and so on). -/
def repMask (m : Nat) : Nat → Nat
  | 0 => 0
  | n + 1 => m + 256 * repMask m n

/-- Assemble a byte list into a natural number, little-endian: models the
`memcpy(&x, a, 8)` reinterpretation of 8 bytes as a `uint64_t` on x86. -/
def ofBytes : List Nat → Nat
  | [] => 0
  | b :: bs => b + 256 * ofBytes bs

/-- The `n` little-endian bytes of `x`. -/
def toBytes : Nat → Nat → List Nat
  | 0, _ => []
  | n + 1, x => x % 256 :: toBytes n (x / 256)

/-- The word fast path of `hamming_distance_blob`
(src/hammdist.c, lines 22-27): load both 8-byte operands as 64-bit words,
XOR, popcount. -/
def wordPath (a b : List Nat) : Nat := popcount (ofBytes a ^^^ ofBytes b)

/-- The general path of `hamming_distance_blob`
(src/hammdist.c, lines 30-47): byte loop over the overlapping prefix
(`len = min alen blen`), then the tail loop of whichever operand is
longer. -/
def bytePath (a b : List Nat) : Nat :=
  let len := min a.length b.length
  let diff := (List.zipWith (fun x y => popcount (x ^^^ y)) a b).sum
  if len < a.length then diff + ((a.drop len).map popcount).sum
  else if len < b.length then diff + ((b.drop len).map popcount).sum
  else diff

/-- `hamming_distance_blob` (src/hammdist.c, lines 18-48). -/
def hamming_distance_blob (a b : List Nat) : Nat :=
  if a.length = 8 ∧ b.length = 8 then wordPath a b else bytePath a b

/-- `hamming_distance_sql` (src/hammdist.c, lines 50-69).  The argument
list models `(argc, argv)`; an entry `none` is a NULL pointer returned by
`sqlite3_value_blob`, result `none` is `sqlite3_result_null`.  The C
returns null when `argc != 2` and when either blob pointer is NULL, and
otherwise the integer distance. -/
def hamming_distance_sql (args : List (Option (List Nat))) : Option Nat :=
  match args with
  | [some a, some b] => some (hamming_distance_blob a b)
  | [_, _] => none
  | _ => none

/-- Zero-pad a byte list at its high-index end to length `n`. -/
def padTo (n : Nat) (a : List Nat) : List Nat := a ++ List.replicate (n - a.length) 0

/-- The specification's definition of the distance: conceptually
zero-extend both operands at the high-index end to the longer length,
XOR bytewise and count the differing bits. -/
def specHamming (a b : List Nat) : Nat :=
  let n := max a.length b.length
  (List.zipWith (fun x y => popcount (x ^^^ y)) (padTo n a) (padTo n b)).sum

/-! ### Basic facts about `popcount` -/

theorem popcountAux_eq (fuel n : Nat) (h : n ≤ fuel) : popcountAux fuel n = popcount n := by
  induction fuel using Nat.strong_induction_on generalizing n with
  | _ fuel ih =>
    match fuel with
    | 0 =>
      interval_cases n
      rfl
    | f + 1 =>
      show (if n = 0 then 0 else popcountAux f (n / 2) + n % 2) = popcount n
      by_cases h0 : n = 0
      · subst h0; rfl
      · rw [if_neg h0]
        have hd : n / 2 < n := Nat.div_lt_self (Nat.pos_of_ne_zero h0) one_lt_two
        rw [ih f (Nat.lt_succ_self f) _ (by omega)]
        show _ = popcountAux n n
        match n, h0 with
        | m + 1, _ =>
          show _ = if m + 1 = 0 then 0 else popcountAux m ((m + 1) / 2) + (m + 1) % 2
          rw [if_neg (Nat.succ_ne_zero m), ih m (by omega) _ (by omega)]

theorem popcount_eq (n : Nat) : popcount n = if n = 0 then 0 else popcount (n / 2) + n % 2 := by
  by_cases h0 : n = 0
  · subst h0; rfl
  · rw [if_neg h0]
    show popcountAux n n = _
    match n, h0 with
    | m + 1, _ =>
      show (if m + 1 = 0 then 0 else popcountAux m ((m + 1) / 2) + (m + 1) % 2) = _
      rw [if_neg (Nat.succ_ne_zero m), popcountAux_eq m ((m + 1) / 2) (by omega)]

theorem popcount_zero : popcount 0 = 0 := rfl

/-- Splitting a number at a power-of-two boundary splits its popcount. -/
theorem popcount_split (k : Nat) : ∀ a c : Nat, a < 2 ^ k →
    popcount (a + 2 ^ k * c) = popcount a + popcount c := by
  induction k with
  | zero =>
    intro a c ha
    interval_cases a
    simp [popcount_zero]
  | succ k ih =>
    intro a c ha
    by_cases hc : c = 0
    · subst hc; simp [popcount_zero]
    · rw [popcount_eq (a + 2 ^ (k + 1) * c)]
      have hne : a + 2 ^ (k + 1) * c ≠ 0 := by positivity
      rw [if_neg hne]
      have h2 : (a + 2 ^ (k + 1) * c) / 2 = a / 2 + 2 ^ k * c := by
        have : 2 ^ (k + 1) * c = 2 * (2 ^ k * c) := by ring
        rw [this, Nat.add_mul_div_left _ _ (by norm_num)]
      have h3 : (a + 2 ^ (k + 1) * c) % 2 = a % 2 := by
        have : 2 ^ (k + 1) * c = 2 * (2 ^ k * c) := by ring
        omega
      rw [h2, h3, ih (a / 2) c (by omega)]
      rw [popcount_eq a]
      by_cases ha0 : a = 0
      · subst ha0; simp [popcount_zero]
      · rw [if_neg ha0]; ring

/-- `popcount` of a number below `2 ^ n` is at most `n`. -/
theorem popcount_le (n : Nat) : ∀ x : Nat, x < 2 ^ n → popcount x ≤ n := by
  induction n with
  | zero =>
    intro x hx
    interval_cases x
    simp [popcount_zero]
  | succ n ih =>
    intro x hx
    rw [popcount_eq x]
    by_cases h0 : x = 0
    · simp [h0]
    · rw [if_neg h0]
      have := ih (x / 2) (by omega)
      omega

/-! ### Splitting numbers at a power-of-two boundary -/

theorem testBit_add_two_pow_mul (k a c j : Nat) (ha : a < 2 ^ k) :
    (a + 2 ^ k * c).testBit j = if j < k then a.testBit j else c.testBit (j - k) := by
  rcases Nat.lt_or_ge j k with hj | hj
  · rw [if_pos hj, Nat.testBit_to_div_mod, Nat.testBit_to_div_mod, decide_eq_decide]
    have hsplit : 2 ^ k * c = 2 ^ j * (2 ^ (k - j) * c) := by
      rw [← Nat.mul_assoc, ← pow_add]
      congr 2
      omega
    have h1 : (a + 2 ^ k * c) / 2 ^ j = a / 2 ^ j + 2 ^ (k - j) * c := by
      rw [hsplit, Nat.add_mul_div_left _ _ (Nat.pos_pow_of_pos j (by norm_num))]
    have h2 : 2 ^ (k - j) * c % 2 = 0 := by
      have he : 2 ^ (k - j) = 2 * 2 ^ (k - j - 1) := by
        rw [← pow_succ']
        congr 1
        omega
      rw [he, Nat.mul_assoc, Nat.mul_mod_right]
    rw [h1]
    omega
  · rw [if_neg (by omega), Nat.testBit_to_div_mod, Nat.testBit_to_div_mod, decide_eq_decide]
    have h1 : (a + 2 ^ k * c) / 2 ^ j = c / 2 ^ (j - k) := by
      have hj' : (2 : Nat) ^ j = 2 ^ k * 2 ^ (j - k) := by
        rw [← pow_add]
        congr 1
        omega
      rw [hj', ← Nat.div_div_eq_div_mul, Nat.add_mul_div_left _ _ (Nat.pos_pow_of_pos k (by norm_num)),
        Nat.div_eq_of_lt ha, Nat.zero_add]
    rw [h1]

theorem land_split (k a b x y : Nat) (ha : a < 2 ^ k) (hb : b < 2 ^ k) :
    (a + 2 ^ k * x) &&& (b + 2 ^ k * y) = (a &&& b) + 2 ^ k * (x &&& y) := by
  apply Nat.eq_of_testBit_eq
  intro j
  have hab : a &&& b < 2 ^ k := lt_of_le_of_lt Nat.and_le_left ha
  rw [Nat.testBit_and, testBit_add_two_pow_mul k a x j ha, testBit_add_two_pow_mul k b y j hb,
    testBit_add_two_pow_mul k (a &&& b) (x &&& y) j hab, Nat.testBit_and, Nat.testBit_and]
  by_cases hj : j < k <;> simp [hj]

theorem xor_split (k a b x y : Nat) (ha : a < 2 ^ k) (hb : b < 2 ^ k) :
    (a + 2 ^ k * x) ^^^ (b + 2 ^ k * y) = (a ^^^ b) + 2 ^ k * (x ^^^ y) := by
  apply Nat.eq_of_testBit_eq
  intro j
  have hab : a ^^^ b < 2 ^ k := Nat.xor_lt_two_pow ha hb
  rw [Nat.testBit_xor, testBit_add_two_pow_mul k a x j ha, testBit_add_two_pow_mul k b y j hb,
    testBit_add_two_pow_mul k (a ^^^ b) (x ^^^ y) j hab, Nat.testBit_xor, Nat.testBit_xor]
  by_cases hj : j < k <;> simp [hj]

theorem two_pow_eight : (256 : Nat) = 2 ^ 8 := by norm_num

theorem land_split8 (a b x y : Nat) (ha : a < 256) (hb : b < 256) :
    (a + 256 * x) &&& (b + 256 * y) = (a &&& b) + 256 * (x &&& y) := by
  rw [two_pow_eight] at ha hb ⊢
  exact land_split 8 a b x y ha hb

theorem xor_split8 (a b x y : Nat) (ha : a < 256) (hb : b < 256) :
    (a + 256 * x) ^^^ (b + 256 * y) = (a ^^^ b) + 256 * (x ^^^ y) := by
  rw [two_pow_eight] at ha hb ⊢
  exact xor_split 8 a b x y ha hb

theorem popcount_split8 (a c : Nat) (ha : a < 256) :
    popcount (a + 256 * c) = popcount a + popcount c := by
  rw [two_pow_eight] at ha ⊢
  exact popcount_split 8 a c ha

/-! ### Facts about `ofBytes` and `toBytes` -/

theorem ofBytes_lt : ∀ bs : List Nat, (∀ b ∈ bs, b < 256) → ofBytes bs < 256 ^ bs.length := by
  intro bs
  induction bs with
  | nil => intro _; simp [ofBytes]
  | cons b bs ih =>
    intro h
    have hb : b < 256 := h b (by simp)
    have hr : ofBytes bs < 256 ^ bs.length := ih fun x hx => h x (by simp [hx])
    show b + 256 * ofBytes bs < 256 ^ (bs.length + 1)
    rw [pow_succ']
    omega

theorem ofBytes_toBytes : ∀ n x : Nat, ofBytes (toBytes n x) = x % 256 ^ n := by
  intro n
  induction n with
  | zero => intro x; simp [toBytes, ofBytes, Nat.mod_one]
  | succ n ih =>
    intro x
    show x % 256 + 256 * ofBytes (toBytes n (x / 256)) = x % 256 ^ (n + 1)
    rw [ih, pow_succ', Nat.mod_mul]

theorem toBytes_length : ∀ n x : Nat, (toBytes n x).length = n := by
  intro n
  induction n with
  | zero => intro x; rfl
  | succ n ih => intro x; simp [toBytes, ih]

theorem toBytes_lt : ∀ n x : Nat, ∀ b ∈ toBytes n x, b < 256 := by
  intro n
  induction n with
  | zero => intro x b hb; simp [toBytes] at hb
  | succ n ih =>
    intro x b hb
    simp only [toBytes, List.mem_cons] at hb
    rcases hb with hb | hb
    · omega
    · exact ih (x / 256) b hb

theorem ofBytes_map_le (g : Nat → Nat) :
    ∀ bs : List Nat, (∀ b ∈ bs, g b ≤ b) → ofBytes (bs.map g) ≤ ofBytes bs := by
  intro bs
  induction bs with
  | nil => intro _; simp
  | cons b bs ih =>
    intro h
    have hb : g b ≤ b := h b (by simp)
    have hr := ih fun x hx => h x (by simp [hx])
    show g b + 256 * ofBytes (bs.map g) ≤ b + 256 * ofBytes bs
    omega

theorem popcount_ofBytes : ∀ bs : List Nat, (∀ b ∈ bs, b < 256) →
    popcount (ofBytes bs) = (bs.map popcount).sum := by
  intro bs
  induction bs with
  | nil => simp [ofBytes, popcount_zero]
  | cons b bs ih =>
    intro h
    have hb : b < 256 := h b (by simp)
    show popcount (b + 256 * ofBytes bs) = _
    rw [popcount_split8 b _ hb, ih fun x hx => h x (by simp [hx])]
    simp

theorem xor_ofBytes : ∀ as bs : List Nat, as.length = bs.length →
    (∀ b ∈ as, b < 256) → (∀ b ∈ bs, b < 256) →
    ofBytes as ^^^ ofBytes bs = ofBytes (List.zipWith (fun x y => x ^^^ y) as bs) := by
  intro as
  induction as with
  | nil =>
    intro bs hlen _ _
    have : bs = [] := by
      cases bs
      · rfl
      · simp at hlen
    subst this
    rfl
  | cons a as ih =>
    intro bs hlen ha hb
    cases bs with
    | nil => simp at hlen
    | cons b bs =>
      show (a + 256 * ofBytes as) ^^^ (b + 256 * ofBytes bs) = _
      rw [xor_split8 a b _ _ (ha a (by simp)) (hb b (by simp))]
      show _ = (a ^^^ b) + 256 * ofBytes (List.zipWith (fun x y => x ^^^ y) as bs)
      rw [ih bs (by simpa using hlen) (fun x hx => ha x (by simp [hx]))
        (fun x hx => hb x (by simp [hx]))]

/-! ### The SWAR word steps act bytewise -/

set_option maxRecDepth 8000 in
theorem head_mask55 : ∀ b < 256, ∀ c < 2, (b / 2 + 128 * c) &&& 0x55 = b / 2 &&& 0x55 := by decide

set_option maxRecDepth 8000 in
theorem head_mask33 : ∀ b < 256, ∀ c < 4, (b / 4 + 64 * c) &&& 0x33 = b / 4 &&& 0x33 := by decide

set_option maxRecDepth 8000 in
theorem head_mask0F : ∀ u < 16, ∀ v < 16, (u + 16 * v) &&& 0x0F = u := by decide

theorem land_repMask (m : Nat) (hm : m < 256) :
    ∀ bs : List Nat, (∀ b ∈ bs, b < 256) →
    ofBytes bs &&& repMask m bs.length = ofBytes (bs.map fun b => b &&& m) := by
  intro bs
  induction bs with
  | nil => intro _; simp [ofBytes, repMask]
  | cons b bs ih =>
    intro h
    show (b + 256 * ofBytes bs) &&& (m + 256 * repMask m bs.length) = _
    rw [land_split8 b m _ _ (h b (by simp)) hm, ih fun x hx => h x (by simp [hx])]
    rfl

theorem shift1_mask_repMask :
    ∀ bs : List Nat, (∀ b ∈ bs, b < 256) →
    (ofBytes bs >>> 1) &&& repMask 0x55 bs.length = ofBytes (bs.map fun b => b / 2 &&& 0x55) := by
  intro bs
  induction bs with
  | nil => intro _; simp [ofBytes, repMask]
  | cons b bs ih =>
    intro h
    have hb : b < 256 := h b (by simp)
    have hsh : ofBytes (b :: bs) >>> 1 = (b / 2 + 128 * (ofBytes bs % 2)) + 256 * (ofBytes bs >>> 1) := by
      show (b + 256 * ofBytes bs) >>> 1 = _
      rw [Nat.shiftRight_one, Nat.shiftRight_one]
      omega
    rw [hsh]
    show _ &&& (0x55 + 256 * repMask 0x55 bs.length) = _
    rw [land_split8 _ _ _ _ (by omega) (by norm_num),
      head_mask55 b hb (ofBytes bs % 2) (Nat.mod_lt _ (by norm_num)),
      ih fun x hx => h x (by simp [hx])]
    rfl

theorem shift2_mask_repMask :
    ∀ bs : List Nat, (∀ b ∈ bs, b < 256) →
    (ofBytes bs >>> 2) &&& repMask 0x33 bs.length = ofBytes (bs.map fun b => b / 4 &&& 0x33) := by
  intro bs
  induction bs with
  | nil => intro _; simp [ofBytes, repMask]
  | cons b bs ih =>
    intro h
    have hb : b < 256 := h b (by simp)
    have hsh : ofBytes (b :: bs) >>> 2 = (b / 4 + 64 * (ofBytes bs % 4)) + 256 * (ofBytes bs >>> 2) := by
      show (b + 256 * ofBytes bs) >>> 2 = _
      rw [Nat.shiftRight_eq_div_pow, Nat.shiftRight_eq_div_pow]
      have h4 : (2 : Nat) ^ 2 = 4 := by norm_num
      rw [h4]
      omega
    rw [hsh]
    show _ &&& (0x33 + 256 * repMask 0x33 bs.length) = _
    rw [land_split8 _ _ _ _ (by omega) (by norm_num),
      head_mask33 b hb (ofBytes bs % 4) (Nat.mod_lt _ (by norm_num)),
      ih fun x hx => h x (by simp [hx])]
    rfl

theorem ofBytes_mod16 : ∀ bs : List Nat, (∀ b ∈ bs, b % 16 ≤ 4) → ofBytes bs % 16 ≤ 4 := by
  intro bs h
  cases bs with
  | nil => simp [ofBytes]
  | cons b bs =>
    have hb : b % 16 ≤ 4 := h b (by simp)
    show (b + 256 * ofBytes bs) % 16 ≤ 4
    omega

theorem add_shift4_mask_repMask :
    ∀ bs : List Nat, (∀ b ∈ bs, b % 16 ≤ 4 ∧ b / 16 ≤ 4) →
    (ofBytes bs + (ofBytes bs >>> 4)) &&& repMask 0x0F bs.length =
      ofBytes (bs.map fun b => b % 16 + b / 16) := by
  intro bs
  induction bs with
  | nil => intro _; simp [ofBytes, repMask]
  | cons b bs ih =>
    intro h
    obtain ⟨hbl, hbh⟩ := h b (by simp)
    have hb : b < 256 := by omega
    have htail : ∀ x ∈ bs, x % 16 ≤ 4 ∧ x / 16 ≤ 4 := fun x hx => h x (by simp [hx])
    have hr16 : ofBytes bs % 16 ≤ 4 := ofBytes_mod16 bs fun x hx => (htail x hx).1
    have hsum : ofBytes (b :: bs) + (ofBytes (b :: bs) >>> 4) =
        ((b % 16 + b / 16) + 16 * (b / 16 + ofBytes bs % 16))
          + 256 * (ofBytes bs + (ofBytes bs >>> 4)) := by
      show (b + 256 * ofBytes bs) + (b + 256 * ofBytes bs) >>> 4 = _
      rw [Nat.shiftRight_eq_div_pow, Nat.shiftRight_eq_div_pow]
      have h16 : (2 : Nat) ^ 4 = 16 := by norm_num
      rw [h16]
      omega
    rw [hsum]
    show _ &&& (0x0F + 256 * repMask 0x0F bs.length) = _
    rw [land_split8 _ _ _ _ (by omega) (by norm_num),
      head_mask0F (b % 16 + b / 16) (by omega) (b / 16 + ofBytes bs % 16) (by omega),
      ih htail]
    rfl

theorem ofBytes_sub_map (g : Nat → Nat) :
    ∀ bs : List Nat, (∀ b ∈ bs, g b ≤ b) →
    ofBytes bs - ofBytes (bs.map g) = ofBytes (bs.map fun b => b - g b) := by
  intro bs
  induction bs with
  | nil => intro _; simp [ofBytes]
  | cons b bs ih =>
    intro h
    have hb : g b ≤ b := h b (by simp)
    have htail : ∀ x ∈ bs, g x ≤ x := fun x hx => h x (by simp [hx])
    have hle : ofBytes (bs.map g) ≤ ofBytes bs := ofBytes_map_le g bs htail
    show (b + 256 * ofBytes bs) - (g b + 256 * ofBytes (bs.map g)) = _
    rw [show (b + 256 * ofBytes bs) - (g b + 256 * ofBytes (bs.map g)) =
      (b - g b) + 256 * (ofBytes bs - ofBytes (bs.map g)) by omega, ih htail]
    rfl

theorem ofBytes_add_map (g h : Nat → Nat) :
    ∀ bs : List Nat, ofBytes (bs.map g) + ofBytes (bs.map h) = ofBytes (bs.map fun b => g b + h b) := by
  intro bs
  induction bs with
  | nil => simp [ofBytes]
  | cons b bs ih =>
    show (g b + 256 * ofBytes (bs.map g)) + (h b + 256 * ofBytes (bs.map h)) = _
    rw [show (g b + 256 * ofBytes (bs.map g)) + (h b + 256 * ofBytes (bs.map h)) =
      (g b + h b) + 256 * (ofBytes (bs.map g) + ofBytes (bs.map h)) by omega, ih]
    rfl

/-! ### SWAR correctness -/

set_option maxRecDepth 8000 in
theorem swar_nibble_bounds :
    ∀ b < 256, swarByte2 (swarByte1 b) % 16 ≤ 4 ∧ swarByte2 (swarByte1 b) / 16 ≤ 4 := by decide

set_option maxRecDepth 8000 in
theorem swarByte_popcount : ∀ b < 256, swarByte3 (swarByte2 (swarByte1 b)) = popcount b := by decide

set_option maxRecDepth 8000 in
theorem popcount_byte_le : ∀ b < 256, popcount b ≤ 8 := by decide

theorem mulStep : ∀ s : List Nat, s.length = 8 → (∀ v ∈ s, v ≤ 8) →
    ((ofBytes s * 0x0101010101010101) % 2 ^ 64) >>> 56 = s.sum := by
  intro s hlen hv
  cases s with
  | nil => simp at hlen
  | cons s0 s =>
  cases s with
  | nil => simp at hlen
  | cons s1 s =>
  cases s with
  | nil => simp at hlen
  | cons s2 s =>
  cases s with
  | nil => simp at hlen
  | cons s3 s =>
  cases s with
  | nil => simp at hlen
  | cons s4 s =>
  cases s with
  | nil => simp at hlen
  | cons s5 s =>
  cases s with
  | nil => simp at hlen
  | cons s6 s =>
  cases s with
  | nil => simp at hlen
  | cons s7 s =>
  cases s with
  | cons s8 s => simp at hlen
  | nil =>
    have h0 : s0 ≤ 8 := hv _ (by simp)
    have h1 : s1 ≤ 8 := hv _ (by simp)
    have h2 : s2 ≤ 8 := hv _ (by simp)
    have h3 : s3 ≤ 8 := hv _ (by simp)
    have h4 : s4 ≤ 8 := hv _ (by simp)
    have h5 : s5 ≤ 8 := hv _ (by simp)
    have h6 : s6 ≤ 8 := hv _ (by simp)
    have h7 : s7 ≤ 8 := hv _ (by simp)
    have hof : ofBytes [s0, s1, s2, s3, s4, s5, s6, s7] =
        s0 + 256 * (s1 + 256 * (s2 + 256 * (s3 + 256 * (s4 + 256 * (s5 +
          256 * (s6 + 256 * (s7 + 256 * 0))))))) := rfl
    rw [hof, Nat.shiftRight_eq_div_pow]
    have hp64 : (2 : Nat) ^ 64 = 18446744073709551616 := by norm_num
    have hp56 : (2 : Nat) ^ 56 = 72057594037927936 := by norm_num
    rw [hp64, hp56]
    simp only [List.sum_cons, List.sum_nil]
    have key : (s0 + 256 * (s1 + 256 * (s2 + 256 * (s3 + 256 * (s4 + 256 * (s5 +
          256 * (s6 + 256 * (s7 + 256 * 0)))))))) * 0x0101010101010101 =
        (s0 + 256 * (s0 + s1) + 65536 * (s0 + s1 + s2) + 16777216 * (s0 + s1 + s2 + s3) +
          4294967296 * (s0 + s1 + s2 + s3 + s4) + 1099511627776 * (s0 + s1 + s2 + s3 + s4 + s5) +
          281474976710656 * (s0 + s1 + s2 + s3 + s4 + s5 + s6) +
          72057594037927936 * (s0 + s1 + s2 + s3 + s4 + s5 + s6 + s7)) +
        18446744073709551616 * ((s1 + s2 + s3 + s4 + s5 + s6 + s7) +
          256 * (s2 + s3 + s4 + s5 + s6 + s7) + 65536 * (s3 + s4 + s5 + s6 + s7) +
          16777216 * (s4 + s5 + s6 + s7) + 4294967296 * (s5 + s6 + s7) +
          1099511627776 * (s6 + s7) + 281474976710656 * s7) := by ring
    rw [key, Nat.add_mul_mod_self_left, Nat.mod_eq_of_lt (by omega)]
    omega

theorem repMask55_val : (0x5555555555555555 : Nat) = repMask 0x55 8 := by decide

theorem repMask33_val : (0x3333333333333333 : Nat) = repMask 0x33 8 := by decide

theorem repMask0F_val : (0x0F0F0F0F0F0F0F0F : Nat) = repMask 0x0F 8 := by decide

theorem swar_of_bytes (bs : List Nat) (hlen : bs.length = 8) (hmem : ∀ b ∈ bs, b < 256) :
    popcount_u64_swar (ofBytes bs) = (bs.map popcount).sum := by
  have e1 : swarStep1 (ofBytes bs) = ofBytes (bs.map swarByte1) := by
    show ofBytes bs - ((ofBytes bs >>> 1) &&& 0x5555555555555555) = _
    rw [repMask55_val, ← hlen, shift1_mask_repMask _ hmem,
      ofBytes_sub_map _ _ (fun b _ => le_trans Nat.and_le_left (Nat.div_le_self b 2))]
    rfl
  have hmem1 : ∀ c ∈ bs.map swarByte1, c < 256 := by
    intro c hc
    obtain ⟨b, hb, rfl⟩ := List.mem_map.1 hc
    exact lt_of_le_of_lt (Nat.sub_le _ _) (hmem b hb)
  have hlen1 : (bs.map swarByte1).length = 8 := by rw [List.length_map, hlen]
  have e2 : swarStep2 (swarStep1 (ofBytes bs)) =
      ofBytes (bs.map fun b => swarByte2 (swarByte1 b)) := by
    rw [e1]
    show (ofBytes (bs.map swarByte1) &&& 0x3333333333333333) +
      ((ofBytes (bs.map swarByte1) >>> 2) &&& 0x3333333333333333) = _
    rw [repMask33_val, ← hlen1, land_repMask 0x33 (by norm_num) _ hmem1,
      shift2_mask_repMask _ hmem1, ofBytes_add_map _ _ _, List.map_map]
    rfl
  have hmem2 : ∀ c ∈ bs.map fun b => swarByte2 (swarByte1 b),
      c % 16 ≤ 4 ∧ c / 16 ≤ 4 := by
    intro c hc
    obtain ⟨b, hb, rfl⟩ := List.mem_map.1 hc
    exact swar_nibble_bounds b (hmem b hb)
  have hlen2 : (bs.map fun b => swarByte2 (swarByte1 b)).length = 8 := by
    rw [List.length_map, hlen]
  have hcomp : (bs.map fun b => swarByte2 (swarByte1 b)).map (fun c => c % 16 + c / 16) =
      bs.map popcount := by
    rw [List.map_map]
    exact List.map_congr_left fun b hb => swarByte_popcount b (hmem b hb)
  show swarStep3 (swarStep2 (swarStep1 (ofBytes bs))) = _
  rw [e2]
  show ((((ofBytes (bs.map fun b => swarByte2 (swarByte1 b)) +
      (ofBytes (bs.map fun b => swarByte2 (swarByte1 b)) >>> 4)) &&&
      0x0F0F0F0F0F0F0F0F) * 0x0101010101010101) % 2 ^ 64) >>> 56 = _
  rw [repMask0F_val, ← hlen2, add_shift4_mask_repMask _ hmem2, hcomp]
  refine mulStep _ (by rw [List.length_map, hlen]) ?_
  intro v hv
  obtain ⟨b, hb, rfl⟩ := List.mem_map.1 hv
  exact popcount_byte_le b (hmem b hb)

theorem swar_eq_popcount (x : Nat) (hx : x < 2 ^ 64) : popcount_u64_swar x = popcount x := by
  have h2_64 : (256 : Nat) ^ 8 = 2 ^ 64 := by norm_num
  have hofx : ofBytes (toBytes 8 x) = x := by
    rw [ofBytes_toBytes, h2_64, Nat.mod_eq_of_lt hx]
  conv_lhs => rw [← hofx]
  rw [swar_of_bytes (toBytes 8 x) (toBytes_length 8 x) (toBytes_lt 8 x),
    ← popcount_ofBytes _ (toBytes_lt 8 x), hofx]

/-! ### The specification's distance, decomposed as overlap plus tails -/

theorem padTo_cons (n x : Nat) (a : List Nat) : padTo (n + 1) (x :: a) = x :: padTo n a := by
  simp [padTo, List.length_cons, Nat.succ_sub_succ]

theorem zipWith_replicate_left (f : Nat → Nat → Nat) (c : Nat) :
    ∀ bs : List Nat, List.zipWith f (List.replicate bs.length c) bs = bs.map (f c) := by
  intro bs
  induction bs with
  | nil => rfl
  | cons b bs ih => simp [List.replicate_succ, ih]

theorem specHamming_nil_left (b : List Nat) : specHamming [] b = (b.map popcount).sum := by
  unfold specHamming padTo
  simp only [List.length_nil, Nat.zero_max, List.nil_append, Nat.sub_zero, Nat.sub_self,
    List.replicate_zero, List.append_nil]
  rw [zipWith_replicate_left]
  congr 1
  exact List.map_congr_left fun y _ => by rw [Nat.zero_xor]

theorem specHamming_nil_right (a : List Nat) : specHamming a [] = (a.map popcount).sum := by
  unfold specHamming padTo
  simp only [List.length_nil, Nat.max_zero, List.nil_append, Nat.sub_zero, Nat.sub_self,
    List.replicate_zero, List.append_nil]
  rw [List.zipWith_comm_of_comm _ (fun x y => by rw [Nat.xor_comm]), zipWith_replicate_left]
  congr 1
  exact List.map_congr_left fun y _ => by rw [Nat.zero_xor]

theorem specHamming_cons (x y : Nat) (xs ys : List Nat) :
    specHamming (x :: xs) (y :: ys) = popcount (x ^^^ y) + specHamming xs ys := by
  simp only [specHamming]
  have hmax : max (x :: xs).length (y :: ys).length = max xs.length ys.length + 1 := by
    simp only [List.length_cons]
    omega
  rw [hmax, padTo_cons, padTo_cons, List.zipWith_cons_cons, List.sum_cons]

theorem specHamming_eq : ∀ a b : List Nat, specHamming a b =
    (List.zipWith (fun x y => popcount (x ^^^ y)) a b).sum
    + ((a.drop (min a.length b.length)).map popcount).sum
    + ((b.drop (min a.length b.length)).map popcount).sum := by
  intro a
  induction a with
  | nil =>
    intro b
    rw [specHamming_nil_left]
    simp
  | cons x xs ih =>
    intro b
    cases b with
    | nil =>
      rw [specHamming_nil_right]
      simp
    | cons y ys =>
      rw [specHamming_cons, ih ys]
      simp only [List.zipWith_cons_cons, List.sum_cons, List.length_cons]
      have hmin : min (xs.length + 1) (ys.length + 1) = min xs.length ys.length + 1 := by
        omega
      rw [hmin]
      simp only [List.drop_succ_cons]
      omega

/-! ### The two routes of the engine -/

theorem zipWith_xor_lt : ∀ a b : List Nat, (∀ v ∈ a, v < 256) → (∀ v ∈ b, v < 256) →
    ∀ c ∈ List.zipWith (fun x y => x ^^^ y) a b, c < 256 := by
  intro a
  induction a with
  | nil => intro b _ _ c hc; simp at hc
  | cons x xs ih =>
    intro b ha hb c hc
    cases b with
    | nil => simp at hc
    | cons y ys =>
      simp only [List.zipWith_cons_cons, List.mem_cons] at hc
      rcases hc with rfl | hc
      · rw [two_pow_eight] at *
        exact Nat.xor_lt_two_pow (ha x (by simp)) (hb y (by simp))
      · exact ih ys (fun v hv => ha v (by simp [hv])) (fun v hv => hb v (by simp [hv])) c hc

theorem wordPath_eq_zip (a b : List Nat) (ha8 : a.length = 8) (hb8 : b.length = 8)
    (ha : ∀ v ∈ a, v < 256) (hb : ∀ v ∈ b, v < 256) :
    wordPath a b = (List.zipWith (fun x y => popcount (x ^^^ y)) a b).sum := by
  unfold wordPath
  rw [xor_ofBytes a b (by omega) ha hb,
    popcount_ofBytes _ (zipWith_xor_lt a b ha hb), List.map_zipWith]

theorem bytePath_eq_zip_of_length_eq (a b : List Nat) (h : a.length = b.length) :
    bytePath a b = (List.zipWith (fun x y => popcount (x ^^^ y)) a b).sum := by
  simp only [bytePath, h, Nat.min_self, Nat.lt_irrefl, if_false]

theorem bytePath_eq_spec (a b : List Nat) : bytePath a b = specHamming a b := by
  rw [specHamming_eq]
  simp only [bytePath]
  rcases Nat.lt_trichotomy a.length b.length with h | h | h
  · have hmin : min a.length b.length = a.length := by omega
    rw [hmin, if_neg (by omega), if_pos (by omega), List.drop_length]
    simp
  · rw [h, Nat.min_self, if_neg (by omega), if_neg (by omega), List.drop_length,
      ← h, List.drop_length]
    simp
  · have hmin : min a.length b.length = b.length := by omega
    rw [hmin, if_pos (by omega), List.drop_length]
    simp

/-! ### Subadditivity of `popcount` under XOR, and the triangle inequality -/

theorem xor_split2 (a b x y : Nat) (ha : a < 2) (hb : b < 2) :
    (a + 2 * x) ^^^ (b + 2 * y) = (a ^^^ b) + 2 * (x ^^^ y) := by
  have h := xor_split 1 a b x y (by simpa [pow_one] using ha) (by simpa [pow_one] using hb)
  simpa [pow_one] using h

theorem popcount_split2 (a c : Nat) (ha : a < 2) :
    popcount (a + 2 * c) = popcount a + popcount c := by
  have h := popcount_split 1 a c (by simpa [pow_one] using ha)
  simpa [pow_one] using h

theorem popcount_bit_xor_le : ∀ a < 2, ∀ b < 2, popcount (a ^^^ b) ≤ popcount a + popcount b := by
  decide

theorem popcount_xor_le : ∀ u v : Nat, popcount (u ^^^ v) ≤ popcount u + popcount v := by
  intro u
  induction u using Nat.strong_induction_on with
  | _ u ih =>
    intro v
    by_cases hu : u = 0
    · subst hu
      rw [Nat.zero_xor]
      omega
    · have hsplit : u ^^^ v = (u % 2 ^^^ v % 2) + 2 * (u / 2 ^^^ v / 2) := by
        conv_lhs => rw [show u = u % 2 + 2 * (u / 2) by omega,
          show v = v % 2 + 2 * (v / 2) by omega]
        exact xor_split2 _ _ _ _ (by omega) (by omega)
      have hu2 : popcount u = popcount (u % 2) + popcount (u / 2) := by
        conv_lhs => rw [show u = u % 2 + 2 * (u / 2) by omega]
        exact popcount_split2 _ _ (by omega)
      have hv2 : popcount v = popcount (v % 2) + popcount (v / 2) := by
        conv_lhs => rw [show v = v % 2 + 2 * (v / 2) by omega]
        exact popcount_split2 _ _ (by omega)
      have hhead : popcount (u % 2 ^^^ v % 2) ≤ popcount (u % 2) + popcount (v % 2) :=
        popcount_bit_xor_le _ (by omega) _ (by omega)
      have htail : popcount (u / 2 ^^^ v / 2) ≤ popcount (u / 2) + popcount (v / 2) :=
        ih (u / 2) (Nat.div_lt_self (Nat.pos_of_ne_zero hu) one_lt_two) (v / 2)
      rw [hsplit, popcount_split2 _ _ (Nat.xor_lt_two_pow (n := 1) (by omega) (by omega))]
      omega

theorem popcount_xor_triangle (x y z : Nat) :
    popcount (x ^^^ z) ≤ popcount (x ^^^ y) + popcount (y ^^^ z) := by
  have h : x ^^^ z = (x ^^^ y) ^^^ (y ^^^ z) := by
    rw [Nat.xor_assoc, ← Nat.xor_assoc y y z, Nat.xor_self, Nat.zero_xor]
  rw [h]
  exact popcount_xor_le _ _

theorem zip_triangle : ∀ a b c : List Nat, a.length = b.length → b.length = c.length →
    (List.zipWith (fun x y => popcount (x ^^^ y)) a c).sum ≤
      (List.zipWith (fun x y => popcount (x ^^^ y)) a b).sum +
      (List.zipWith (fun x y => popcount (x ^^^ y)) b c).sum := by
  intro a
  induction a with
  | nil =>
    intro b c hab hbc
    simp
  | cons x xs ih =>
    intro b c hab hbc
    cases b with
    | nil => simp at hab
    | cons y ys =>
      cases c with
      | nil => simp at hbc
      | cons z zs =>
        simp only [List.zipWith_cons_cons, List.sum_cons]
        have h1 := popcount_xor_triangle x y z
        have h2 := ih ys zs (by simpa using hab) (by simpa using hbc)
        omega

/-! ### Size bounds -/

theorem sum_popcount_le : ∀ l : List Nat, (∀ v ∈ l, v < 256) →
    (l.map popcount).sum ≤ 8 * l.length := by
  intro l
  induction l with
  | nil => intro _; simp
  | cons x xs ih =>
    intro h
    have hx : popcount x ≤ 8 := popcount_byte_le x (h x (by simp))
    have hxs := ih fun v hv => h v (by simp [hv])
    simp only [List.map_cons, List.sum_cons, List.length_cons]
    omega

theorem sum_zip_popcount_le : ∀ a b : List Nat, (∀ v ∈ a, v < 256) → (∀ v ∈ b, v < 256) →
    (List.zipWith (fun x y => popcount (x ^^^ y)) a b).sum ≤ 8 * min a.length b.length := by
  intro a
  induction a with
  | nil => intro b _ _; simp
  | cons x xs ih =>
    intro b ha hb
    cases b with
    | nil => simp
    | cons y ys =>
      simp only [List.zipWith_cons_cons, List.sum_cons, List.length_cons]
      have hx : popcount (x ^^^ y) ≤ 8 := by
        refine popcount_byte_le _ ?_
        rw [two_pow_eight]
        exact Nat.xor_lt_two_pow (by rw [← two_pow_eight]; exact ha x (by simp))
          (by rw [← two_pow_eight]; exact hb y (by simp))
      have hxs := ih ys (fun v hv => ha v (by simp [hv])) (fun v hv => hb v (by simp [hv]))
      omega

theorem bytePath_le (a b : List Nat) (ha : ∀ v ∈ a, v < 256) (hb : ∀ v ∈ b, v < 256) :
    bytePath a b ≤ 8 * max a.length b.length := by
  simp only [bytePath]
  have hzip := sum_zip_popcount_le a b ha hb
  have hta : ((a.drop (min a.length b.length)).map popcount).sum ≤
      8 * (a.length - min a.length b.length) := by
    have := sum_popcount_le (a.drop (min a.length b.length))
      fun v hv => ha v (List.mem_of_mem_drop hv)
    rwa [List.length_drop] at this
  have htb : ((b.drop (min a.length b.length)).map popcount).sum ≤
      8 * (b.length - min a.length b.length) := by
    have := sum_popcount_le (b.drop (min a.length b.length))
      fun v hv => hb v (List.mem_of_mem_drop hv)
    rwa [List.length_drop] at this
  split_ifs with h1 h2 <;> omega

theorem wordPath_le (a b : List Nat) (ha8 : a.length = 8) (hb8 : b.length = 8)
    (ha : ∀ v ∈ a, v < 256) (hb : ∀ v ∈ b, v < 256) : wordPath a b ≤ 64 := by
  unfold wordPath
  have hA : ofBytes a < 2 ^ 64 := by
    have := ofBytes_lt a ha
    rw [ha8] at this
    calc ofBytes a < 256 ^ 8 := this
    _ = 2 ^ 64 := by norm_num
  have hB : ofBytes b < 2 ^ 64 := by
    have := ofBytes_lt b hb
    rw [hb8] at this
    calc ofBytes b < 256 ^ 8 := this
    _ = 2 ^ 64 := by norm_num
  exact popcount_le 64 _ (Nat.xor_lt_two_pow hA hB)

theorem bytePath_comm (a b : List Nat) : bytePath a b = bytePath b a := by
  simp only [bytePath]
  rw [List.zipWith_comm_of_comm _ (fun x y => by rw [Nat.xor_comm]) a b, Nat.min_comm]
  split_ifs <;> omega

theorem hamming_distance_blob_nil_left (b : List Nat) :
    hamming_distance_blob [] b = (b.map popcount).sum := by
  unfold hamming_distance_blob
  rw [if_neg (by simp)]
  simp only [bytePath, List.length_nil, List.zipWith_nil_left, List.sum_nil, Nat.zero_min,
    List.drop_zero]
  rw [if_neg (lt_irrefl 0)]
  by_cases hb : 0 < b.length
  · rw [if_pos hb, Nat.zero_add]
  · rw [if_neg hb]
    have hbnil : b = [] := by
      cases b
      · rfl
      · simp at hb
    subst hbnil
    rfl

/-! ### The claims -/

/-- C1: for every pair of byte sequences, `hamming_distance_blob` returns the
number of differing bit positions after the shorter operand is zero-extended
at its high-index end to the longer length and the two are XORed bitwise
(`specHamming`), i.e. the sum over the overlapping prefix of
`popcount (a[i] ^^^ b[i])` plus the popcounts of the longer operand's
trailing bytes. -/
theorem hamming_distance_blob_matches_spec (a b : List Nat)
    (ha : ∀ v ∈ a, v < 256) (hb : ∀ v ∈ b, v < 256) :
    hamming_distance_blob a b = specHamming a b := by
  unfold hamming_distance_blob
  split_ifs with h
  · obtain ⟨ha8, hb8⟩ := h
    rw [wordPath_eq_zip a b ha8 hb8 ha hb, ← bytePath_eq_zip_of_length_eq a b (by omega),
      bytePath_eq_spec]
  · exact bytePath_eq_spec a b

/-- Witness for C1 at a concrete mismatched-length input. -/
theorem hamming_distance_blob_matches_spec_witness :
    (∀ v ∈ ([0xB0, 0x01] : List Nat), v < 256) ∧ (∀ v ∈ ([0x10] : List Nat), v < 256) ∧
    hamming_distance_blob [0xB0, 0x01] [0x10] = specHamming [0xB0, 0x01] [0x10] :=
  ⟨by decide, by decide, hamming_distance_blob_matches_spec _ _ (by decide) (by decide)⟩

/-- C2: on two 8-byte operands the word fast path (load both as 64-bit
words, XOR, popcount) agrees with the general byte-wise path (sum over the
8 byte positions of `popcount (a[i] ^^^ b[i])`). -/
theorem word_fast_path_eq_byte_loop (a b : List Nat) (ha8 : a.length = 8) (hb8 : b.length = 8)
    (ha : ∀ v ∈ a, v < 256) (hb : ∀ v ∈ b, v < 256) :
    wordPath a b = bytePath a b := by
  rw [wordPath_eq_zip a b ha8 hb8 ha hb, bytePath_eq_zip_of_length_eq a b (by omega)]

/-- Witness for C2 at two concrete 8-byte operands. -/
theorem word_fast_path_eq_byte_loop_witness :
    ([1, 2, 3, 4, 5, 6, 7, 255] : List Nat).length = 8 ∧
    ([254, 7, 6, 5, 4, 3, 2, 1] : List Nat).length = 8 ∧
    wordPath [1, 2, 3, 4, 5, 6, 7, 255] [254, 7, 6, 5, 4, 3, 2, 1] =
      bytePath [1, 2, 3, 4, 5, 6, 7, 255] [254, 7, 6, 5, 4, 3, 2, 1] :=
  ⟨rfl, rfl, word_fast_path_eq_byte_loop _ _ rfl rfl (by decide) (by decide)⟩

/-- C3: `hamming_distance_sql` called with exactly two arguments where
either blob pointer is NULL returns SQL NULL; the distance engine is not
invoked. -/
theorem sql_null_propagation (o1 o2 : Option (List Nat)) (h : o1 = none ∨ o2 = none) :
    hamming_distance_sql [o1, o2] = none := by
  rcases h with rfl | rfl
  · cases o2 <;> rfl
  · cases o1 <;> rfl

/-- Witness for C3: second argument NULL, first a real blob. -/
theorem sql_null_propagation_witness :
    ((some [1, 2] : Option (List Nat)) = none ∨ (none : Option (List Nat)) = none) ∧
    hamming_distance_sql [some [1, 2], none] = none :=
  ⟨Or.inr rfl, sql_null_propagation _ _ (Or.inr rfl)⟩

/-- C4: the distance is symmetric for all operand lengths, matched or
mismatched, zero included. -/
theorem hamming_distance_blob_comm (a b : List Nat) :
    hamming_distance_blob a b = hamming_distance_blob b a := by
  unfold hamming_distance_blob
  split_ifs with h1 h2 h2
  · unfold wordPath
    rw [Nat.xor_comm]
  · exact absurd ⟨h1.2, h1.1⟩ h2
  · exact absurd ⟨h2.2, h2.1⟩ h1
  · exact bytePath_comm a b

/-- C5: the distance of any byte sequence against itself is zero, on both
the fast path (length 8) and the general path. -/
theorem hamming_distance_blob_self (a : List Nat) : hamming_distance_blob a a = 0 := by
  unfold hamming_distance_blob
  split_ifs with h
  · unfold wordPath
    rw [Nat.xor_self]
    exact popcount_zero
  · rw [bytePath_eq_zip_of_length_eq a a rfl]
    apply List.sum_eq_zero
    intro c hc
    rw [List.zipWith_same] at hc
    obtain ⟨x, hx, rfl⟩ := List.mem_map.1 hc
    rw [Nat.xor_self]
    exact popcount_zero

/-- C6 counterexample: the claim's "always representable as a plain (machine)
integer without overflow or wraparound" fails on the program.  The C
accumulator `diff`, the return value and `sqlite3_result_int` are 32-bit
`int`, yet the blob of `2 ^ 28` bytes `0xFF` — a valid SQLite blob, well
under the default 1 GB blob limit — has distance `2 ^ 31` against the empty
blob, exceeding `INT_MAX = 2 ^ 31 - 1`. -/
theorem hamming_distance_blob_overflows_int32 :
    2 ^ 31 - 1 < hamming_distance_blob [] (List.replicate (2 ^ 28) 255) := by
  rw [hamming_distance_blob_nil_left, List.map_replicate]
  have h255 : popcount 255 = 8 := by decide
  rw [h255, List.sum_replicate, smul_eq_mul]
  norm_num

/-- C6 (amended): the distance is a non-negative integer bounded by
`8 * max alen blen`; it is representable in a machine integer only when that
bound is, and in particular stays below `2 ^ 31` (no 32-bit `int` overflow)
whenever `max alen blen < 2 ^ 28`.  Unconditional no-overflow is refuted by
`hamming_distance_blob_overflows_int32`. -/
theorem hamming_distance_blob_le (a b : List Nat)
    (ha : ∀ v ∈ a, v < 256) (hb : ∀ v ∈ b, v < 256) :
    hamming_distance_blob a b ≤ 8 * max a.length b.length ∧
    (max a.length b.length < 2 ^ 28 → hamming_distance_blob a b < 2 ^ 31) := by
  have hle : hamming_distance_blob a b ≤ 8 * max a.length b.length := by
    unfold hamming_distance_blob
    split_ifs with h
    · obtain ⟨ha8, hb8⟩ := h
      have hw := wordPath_le a b ha8 hb8 ha hb
      rw [ha8, hb8]
      have h64 : 8 * max (8 : Nat) 8 = 64 := by norm_num
      rw [h64]
      exact hw
    · exact bytePath_le a b ha hb
  refine ⟨hle, fun hsmall => ?_⟩
  have : (8 : Nat) * max a.length b.length < 8 * 2 ^ 28 := by omega
  omega

/-- Witness for C6 at a concrete mismatched-length input. -/
theorem hamming_distance_blob_le_witness :
    (∀ v ∈ ([255, 255, 255] : List Nat), v < 256) ∧ (∀ v ∈ ([0] : List Nat), v < 256) ∧
    (hamming_distance_blob [255, 255, 255] [0] ≤
        8 * max ([255, 255, 255] : List Nat).length ([0] : List Nat).length ∧
      (max ([255, 255, 255] : List Nat).length ([0] : List Nat).length < 2 ^ 28 →
        hamming_distance_blob [255, 255, 255] [0] < 2 ^ 31)) :=
  ⟨by decide, by decide, hamming_distance_blob_le _ _ (by decide) (by decide)⟩

/-- C7: for every 64-bit value, the SWAR fallback of `popcount_u64` computes
the number of 1-bits, so the builtin-intrinsic path (modelled by `popcount`,
the 1-bit count itself) and the SWAR path agree on every input; moreover
both give 0 at 0 and 64 at the all-ones value. -/
theorem popcount_u64_correct (x : Nat) (hx : x < 2 ^ 64) :
    popcount_u64_swar x = popcount x ∧ popcount 0 = 0 ∧ popcount_u64_swar 0 = 0 ∧
    popcount (2 ^ 64 - 1) = 64 ∧ popcount_u64_swar (2 ^ 64 - 1) = 64 :=
  ⟨swar_eq_popcount x hx, rfl, by decide, by decide, by decide⟩

/-- Witness for C7 at a concrete 64-bit value. -/
theorem popcount_u64_correct_witness :
    (0xDEADBEEF12345678 : Nat) < 2 ^ 64 ∧
    (popcount_u64_swar 0xDEADBEEF12345678 = popcount 0xDEADBEEF12345678 ∧
      popcount 0 = 0 ∧ popcount_u64_swar 0 = 0 ∧
      popcount (2 ^ 64 - 1) = 64 ∧ popcount_u64_swar (2 ^ 64 - 1) = 64) :=
  ⟨by decide, popcount_u64_correct _ (by decide)⟩

/-- C8: the triangle inequality holds for equal-length operands. -/
theorem hamming_distance_blob_triangle (a b c : List Nat)
    (hab : a.length = b.length) (hbc : b.length = c.length) :
    hamming_distance_blob a c ≤ hamming_distance_blob a b + hamming_distance_blob b c := by
  unfold hamming_distance_blob
  by_cases h8 : a.length = 8
  · rw [if_pos ⟨h8, by omega⟩, if_pos ⟨h8, by omega⟩, if_pos ⟨by omega, by omega⟩]
    unfold wordPath
    exact popcount_xor_triangle _ _ _
  · rw [if_neg (fun h => h8 h.1), if_neg (fun h => h8 h.1),
      if_neg (fun h => h8 (hab.trans h.1)),
      bytePath_eq_zip_of_length_eq a c (by omega),
      bytePath_eq_zip_of_length_eq a b hab, bytePath_eq_zip_of_length_eq b c hbc]
    exact zip_triangle a b c hab hbc

/-- Witness for C8 at three concrete equal-length inputs. -/
theorem hamming_distance_blob_triangle_witness :
    ([0xB0, 3] : List Nat).length = ([0x10, 5] : List Nat).length ∧
    ([0x10, 5] : List Nat).length = ([0xFF, 9] : List Nat).length ∧
    hamming_distance_blob [0xB0, 3] [0xFF, 9] ≤
      hamming_distance_blob [0xB0, 3] [0x10, 5] + hamming_distance_blob [0x10, 5] [0xFF, 9] :=
  ⟨rfl, rfl, hamming_distance_blob_triangle _ _ _ rfl rfl⟩

/-- C9: `hamming_distance_sql` invoked with an argument count other than 2
returns SQL NULL without reaching the distance engine. -/
theorem sql_wrong_argc (args : List (Option (List Nat))) (h : args.length ≠ 2) :
    hamming_distance_sql args = none := by
  match args with
  | [] => rfl
  | [o] => cases o <;> rfl
  | [_, _] => exact absurd rfl h
  | o1 :: o2 :: _ :: _ => cases o1 <;> cases o2 <;> rfl

/-- Witness for C9 with one argument. -/
theorem sql_wrong_argc_witness :
    ([some [1]] : List (Option (List Nat))).length ≠ 2 ∧
    hamming_distance_sql [some [1]] = none :=
  ⟨by decide, sql_wrong_argc _ (by decide)⟩

/-- C10: the SQL layer decides null-ness solely by the blob pointer: whenever
either operand's pointer is NULL (`none`) the result is SQL NULL and
`hamming_distance_blob` is never reached — even though the engine's defined
distance for a present-but-empty operand would be the popcount of the other
operand's bytes, so an empty blob surfaced as a NULL pointer yields NULL
instead of that value. -/
theorem sql_null_pointer_shortcircuit (b : List Nat) :
    hamming_distance_sql [none, some b] = none ∧
    hamming_distance_sql [some b, none] = none ∧
    hamming_distance_blob [] b = (b.map popcount).sum :=
  ⟨rfl, rfl, hamming_distance_blob_nil_left b⟩

end Hammdist
